import Mathlib

/-! Verification of the `todo.txt-des` plugin (`des.py`): a shallow embedding of its
task-file, tag-parsing, description-store and rewrite logic, together with
theorems settling the specification claims.

Text is modelled as `List Char`; file contents are modelled as the exact
character sequences on disk; the descriptions directory is modelled as an
association list from identifier to file content together with a status flag
for the directory path itself.
-/

namespace Des

/-- The character class `[a-zA-Z0-9]` of `DESCRIPTION_ID_PATTERN` in `des.py`. -/
def isAlnum (c : Char) : Bool :=
  ('a' ≤ c && c ≤ 'z') || ('A' ≤ c && c ≤ 'Z') || ('0' ≤ c && c ≤ '9')

/-- Python `str.strip()` whitespace set (ASCII part, which is all the
repository's data ever contains). -/
def isPyWs (c : Char) : Bool :=
  c = ' ' || c = '\t' || c = '\n' || c = '\r' || c = '\x0b' || c = '\x0c'

/-- One attempt of the regex `des:([a-zA-Z0-9]+)` anchored at the start of `s`:
returns the captured greedy alphanumeric run and the remainder of the text
after the whole match, or `none` when the pattern does not match here.
This embeds a single anchored attempt of `DESCRIPTION_ID_PATTERN` (`des.py`
line 16). -/
def matchDes (s : List Char) : Option (List Char × List Char) :=
  if s.take 4 = ['d', 'e', 's', ':'] then
    if (s.drop 4).takeWhile isAlnum = [] then none
    else some ((s.drop 4).takeWhile isAlnum, (s.drop 4).dropWhile isAlnum)
  else none

/-- Embedding of `DESCRIPTION_ID_PATTERN.search`: scan left to right for the first position
where the pattern matches, returning the captured identifier. -/
def findTag : List Char → Option (List Char)
  | [] => none
  | c :: cs =>
    match matchDes (c :: cs) with
    | some (r, _) => some r
    | none => findTag cs

theorem matchDes_nil : matchDes [] = none := by
  simp [matchDes]

theorem matchDes_eq_some_iff {s i r : List Char} :
    matchDes s = some (i, r) ↔
      ∃ c v, s = 'd' :: 'e' :: 's' :: ':' :: c :: v ∧ isAlnum c = true ∧
        i = (c :: v).takeWhile isAlnum ∧ r = (c :: v).dropWhile isAlnum := by
  constructor
  · intro h
    unfold matchDes at h
    split at h
    · next htake =>
      split at h
      · exact absurd h (by simp)
      · next hne =>
        rcases hd : s.drop 4 with _ | ⟨c, v⟩
        · rw [hd] at hne; simp at hne
        · refine ⟨c, v, ?_, ?_, ?_, ?_⟩
          · have : s.take 4 ++ s.drop 4 = s := List.take_append_drop 4 s
            rw [htake, hd] at this
            simpa using this.symm
          · rw [hd] at hne
            by_contra hc
            simp [List.takeWhile_cons, Bool.not_eq_true] at hne hc
            simp [hc] at hne
          · simp at h
            rw [← h.1, hd]
          · simp at h
            rw [← h.2, hd]
    · exact absurd h (by simp)
  · rintro ⟨c, v, rfl, hc, hi, hr⟩
    unfold matchDes
    have htake : ('d' :: 'e' :: 's' :: ':' :: c :: v).take 4 = ['d', 'e', 's', ':'] := by
      simp
    have hdrop : ('d' :: 'e' :: 's' :: ':' :: c :: v).drop 4 = c :: v := by
      simp
    rw [htake, hdrop]
    simp [List.takeWhile_cons, hc, hi, hr]

theorem matchDes_eq_none_iff {s : List Char} :
    matchDes s = none ↔ ∀ c v, s = 'd' :: 'e' :: 's' :: ':' :: c :: v → isAlnum c = false := by
  constructor
  · intro h c v hs
    by_contra hc
    have hc' : isAlnum c = true := by
      cases h' : isAlnum c
      · exact absurd h' hc
      · rfl
    have : matchDes s = some ((c :: v).takeWhile isAlnum, (c :: v).dropWhile isAlnum) :=
      matchDes_eq_some_iff.mpr ⟨c, v, hs, hc', rfl, rfl⟩
    rw [h] at this
    exact absurd this (by simp)
  · intro h
    cases hm : matchDes s with
    | none => rfl
    | some p =>
      rcases p with ⟨i, r⟩
      rcases matchDes_eq_some_iff.mp hm with ⟨c, v, hs, hc, _, _⟩
      rw [h c v hs] at hc
      exact absurd hc (by simp)

theorem matchDes_append_some {v z : List Char} (h : ∃ x, matchDes v = some x) :
    ∃ y, matchDes (v ++ z) = some y := by
  rcases h with ⟨⟨i, r⟩, h⟩
  rcases matchDes_eq_some_iff.mp h with ⟨c, w, rfl, hc, _, _⟩
  exact ⟨_, matchDes_eq_some_iff.mpr ⟨c, w ++ z, by simp, hc, rfl, rfl⟩⟩

theorem matchDes_append_space_none {s : List Char} (B : List Char)
    (h : matchDes s = none) : matchDes (s ++ ' ' :: B) = none := by
  rw [matchDes_eq_none_iff] at h ⊢
  intro c v hs
  rcases s with _ | ⟨a1, _ | ⟨a2, _ | ⟨a3, _ | ⟨a4, _ | ⟨a5, s'⟩⟩⟩⟩⟩
  · simp at hs
  · simp at hs
  · simp at hs
  · simp at hs
  · simp at hs
    rcases hs with ⟨-, -, -, -, hc, -⟩
    rw [← hc]
    decide
  · -- five or more characters of `s` are present; the match lies inside `s`
    simp at hs
    rcases hs with ⟨h1, h2, h3, h4, h5, -⟩
    subst h1; subst h2; subst h3; subst h4; subst h5
    exact h _ _ rfl

theorem findTag_cons (c : Char) (cs : List Char) :
    findTag (c :: cs) =
      match matchDes (c :: cs) with
      | some (r, _) => some r
      | none => findTag cs := rfl

/-- The scan `findTag` returns `none` exactly when the anchored matcher fails at every
position of the text. -/
theorem findTag_eq_none_iff {s : List Char} :
    findTag s = none ↔ ∀ k, matchDes (s.drop k) = none := by
  induction s with
  | nil => simp [findTag, matchDes_nil]
  | cons c cs ih =>
    rw [findTag_cons]
    cases hm : matchDes (c :: cs) with
    | some p =>
      simp only [hm]
      constructor
      · rintro ⟨⟩
      · intro h
        have := h 0
        simp [hm] at this
    | none =>
      simp only [hm]
      rw [ih]
      constructor
      · intro h k
        cases k with
        | zero => exact hm
        | succ k' => simpa using h k'
      · intro h k
        simpa using h (k + 1)

/-- The scan `findTag` captures the alphanumeric run of the leftmost position at which
the anchored matcher succeeds. -/
theorem findTag_eq_some_iff {s i : List Char} :
    findTag s = some i ↔
      ∃ k r, (∀ j < k, matchDes (s.drop j) = none) ∧ matchDes (s.drop k) = some (i, r) := by
  induction s with
  | nil =>
    simp only [findTag]
    constructor
    · rintro ⟨⟩
    · rintro ⟨k, r, -, h⟩
      rw [List.drop_nil] at h
      rw [matchDes_nil] at h
      exact absurd h (by simp)
  | cons c cs ih =>
    rw [findTag_cons]
    cases hm : matchDes (c :: cs) with
    | some p =>
      rcases p with ⟨i₀, r₀⟩
      simp only [hm]
      constructor
      · rintro ⟨h⟩
        exact ⟨0, r₀, by omega, by simpa using hm⟩
      · rintro ⟨k, r, hmin, hk⟩
        cases k with
        | zero =>
          rw [List.drop_zero] at hk
          rw [hm] at hk
          simp at hk
          simp [hk.1]
        | succ k' =>
          have := hmin 0 (by omega)
          rw [List.drop_zero] at this
          rw [hm] at this
          exact absurd this (by simp)
    | none =>
      simp only [hm]
      rw [ih]
      constructor
      · rintro ⟨k, r, hmin, hk⟩
        refine ⟨k + 1, r, ?_, by simpa using hk⟩
        intro j hj
        cases j with
        | zero => exact hm
        | succ j' => simpa using hmin j' (by omega)
      · rintro ⟨k, r, hmin, hk⟩
        cases k with
        | zero =>
          rw [List.drop_zero] at hk
          rw [hm] at hk
          exact absurd hk (by simp)
        | succ k' =>
          exact ⟨k', r, fun j hj => by simpa using hmin (j + 1) (by omega),
            by simpa using hk⟩

theorem findTag_suffix_some {t : List Char} (h : ∃ x, matchDes t = some x) :
    ∀ u, ∃ y, findTag (u ++ t) = some y := by
  intro u
  induction u with
  | nil =>
    rcases h with ⟨⟨i, r⟩, h⟩
    rcases t with _ | ⟨c, cs⟩
    · rw [matchDes_nil] at h
      exact absurd h (by simp)
    · rw [List.nil_append, findTag_cons, h]
      exact ⟨i, rfl⟩
  | cons a u' ihu =>
    rw [List.cons_append, findTag_cons]
    cases hm : matchDes (a :: (u' ++ t)) with
    | some p => exact ⟨p.1, by simp⟩
    | none => simpa using ihu

theorem findTag_infix_some {m : List Char} (h : ∃ i, findTag m = some i) :
    ∀ l r, ∃ y, findTag (l ++ (m ++ r)) = some y := by
  intro l r
  rcases h with ⟨i, h⟩
  rcases findTag_eq_some_iff.mp h with ⟨k, r₀, -, hk⟩
  have hsome : ∃ x, matchDes (m.drop k ++ r) = some x :=
    matchDes_append_some ⟨(i, r₀), hk⟩
  have hdecomp : l ++ (m ++ r) = (l ++ m.take k) ++ (m.drop k ++ r) := by
    rw [List.append_assoc, ← List.append_assoc (m.take k), List.take_append_drop]
  rw [hdecomp]
  exact findTag_suffix_some hsome _

theorem findTag_infix_none {l m r : List Char} (h : findTag (l ++ (m ++ r)) = none) :
    findTag m = none := by
  cases hm : findTag m with
  | none => rfl
  | some i =>
    rcases findTag_infix_some ⟨i, hm⟩ l r with ⟨y, hy⟩
    rw [h] at hy
    exact absurd hy (by simp)

/-- Appending text after a space separator: when the left part has no tag, the
scan reduces to scanning the right part. -/
theorem findTag_append_space {A : List Char} (hA : findTag A = none) (B : List Char) :
    findTag (A ++ ' ' :: B) = findTag B := by
  induction A with
  | nil =>
    rw [List.nil_append, findTag_cons]
    have : matchDes (' ' :: B) = none := by
      rw [matchDes_eq_none_iff]
      intro c v h
      simp at h
    rw [this]
  | cons a A' ihA =>
    rw [findTag_cons] at hA
    cases hm : matchDes (a :: A') with
    | some p =>
      rw [hm] at hA
      rcases p with ⟨x, y⟩
      exact absurd hA (by simp)
    | none =>
      rw [hm] at hA
      rw [List.cons_append, findTag_cons]
      have hsep : matchDes ((a :: A') ++ ' ' :: B) = none :=
        matchDes_append_space_none B hm
      rw [List.cons_append] at hsep
      rw [hsep]
      exact ihA hA

/-- Fuel-driven worker for `re.sub(DESCRIPTION_ID_PATTERN, '', line)`: scan
left to right; at each position either delete a whole match and continue after
it, or keep the character.  The fuel only makes the structural recursion
evident; `stripTags` always supplies enough. -/
def stripTagsF : Nat → List Char → List Char
  | 0, s => s
  | _ + 1, [] => []
  | fuel + 1, c :: cs =>
    match matchDes (c :: cs) with
    | some (_, rest) => stripTagsF fuel rest
    | none => c :: stripTagsF fuel cs

/-- Embedding of `re.sub(DESCRIPTION_ID_PATTERN.pattern, '', s)` (`des.py` line 123):
remove every non-overlapping `des:<alnum>+` match from `s`. -/
def stripTags (s : List Char) : List Char :=
  stripTagsF s.length s

theorem matchDes_rest_length {s i r : List Char} (h : matchDes s = some (i, r)) :
    r.length + 4 ≤ s.length := by
  rcases matchDes_eq_some_iff.mp h with ⟨c, v, rfl, -, -, hr⟩
  have : ((c :: v).dropWhile isAlnum).length ≤ (c :: v).length :=
    List.Sublist.length_le (List.dropWhile_sublist _)
  rw [hr]
  simp at this ⊢
  omega

theorem stripTagsF_stable :
    ∀ f₁ f₂ s, s.length ≤ f₁ → s.length ≤ f₂ → stripTagsF f₁ s = stripTagsF f₂ s := by
  intro f₁
  induction f₁ with
  | zero =>
    intro f₂ s h₁ _
    have : s = [] := List.eq_nil_of_length_eq_zero (by omega)
    subst this
    cases f₂ <;> rfl
  | succ g ih =>
    intro f₂ s h₁ h₂
    cases s with
    | nil => cases f₂ <;> rfl
    | cons c cs =>
      cases f₂ with
      | zero => simp at h₂
      | succ g₂ =>
        show stripTagsF (g + 1) (c :: cs) = stripTagsF (g₂ + 1) (c :: cs)
        simp only [stripTagsF]
        cases hm : matchDes (c :: cs) with
        | some p =>
          rcases p with ⟨i, rest⟩
          have hlen := matchDes_rest_length hm
          simp at h₁ h₂ hlen
          exact ih g₂ rest (by omega) (by omega)
        | none =>
          simp at h₁ h₂
          rw [ih g₂ cs (by omega) (by omega)]

theorem stripTags_nil : stripTags [] = [] := rfl

theorem stripTags_cons (c : Char) (cs : List Char) :
    stripTags (c :: cs) =
      match matchDes (c :: cs) with
      | some (_, rest) => stripTags rest
      | none => c :: stripTags cs := by
  show stripTagsF (cs.length + 1) (c :: cs) = _
  simp only [stripTagsF]
  cases hm : matchDes (c :: cs) with
  | some p =>
    rcases p with ⟨i, rest⟩
    have hlen := matchDes_rest_length hm
    simp at hlen
    exact stripTagsF_stable _ _ rest (by omega) (by omega)
  | none => rfl

theorem stripTags_sublist_aux :
    ∀ n s, List.length s ≤ n → List.Sublist (stripTags s) s := by
  intro n
  induction n with
  | zero =>
    intro s h
    have : s = [] := List.eq_nil_of_length_eq_zero (by omega)
    subst this
    simp [stripTags_nil]
  | succ m ih =>
    intro s h
    cases s with
    | nil => simp [stripTags_nil]
    | cons c cs =>
      rw [stripTags_cons]
      cases hm : matchDes (c :: cs) with
      | some p =>
        rcases p with ⟨i, rest⟩
        have hlen := matchDes_rest_length hm
        simp at h hlen
        have h1 : List.Sublist (stripTags rest) rest := ih rest (by omega)
        have h2 : List.Sublist rest (c :: cs) := by
          rcases matchDes_eq_some_iff.mp hm with ⟨c', v, heq, -, -, hr⟩
          rw [hr]
          have hs1 : List.Sublist ((c' :: v).dropWhile isAlnum) (c' :: v) :=
            List.dropWhile_sublist _
          have hs2 : List.Sublist (c' :: v) (c :: cs) := by
            rw [heq]
            exact (List.sublist_append_right ['d', 'e', 's', ':'] (c' :: v))
          exact hs1.trans hs2
        exact h1.trans h2
      | none =>
        simp at h
        exact List.Sublist.cons₂ c (ih cs (by omega))

theorem stripTags_sublist (s : List Char) : List.Sublist (stripTags s) s :=
  stripTags_sublist_aux s.length s (by omega)

/-- Characters of a sublist of `l` that sit before the sublist's last element
avoid `'\n'` whenever the characters before `l`'s last element do. -/
theorem sublist_dropLast_no_nl {S l : List Char} (hsub : List.Sublist S l)
    (h : ∀ c ∈ l.dropLast, c ≠ '\n') : ∀ c ∈ S.dropLast, c ≠ '\n' := by
  cases hl : l.getLast? with
  | none =>
    have : l = [] := by
      cases l with
      | nil => rfl
      | cons x xs => simp [List.getLast?_eq_getLast] at hl
    subst this
    have : S = [] := List.sublist_nil.mp hsub
    subst this
    intro c hc
    simp at hc
  | some z =>
    have hlne : l ≠ [] := by
      intro hnil
      rw [hnil] at hl
      simp at hl
    have hdecomp : l = l.dropLast ++ [z] := by
      have := List.dropLast_append_getLast hlne
      rw [List.getLast?_eq_getLast l hlne] at hl
      simp at hl
      rw [hl] at this
      exact this.symm
    rw [hdecomp] at hsub
    rcases List.sublist_append_iff.mp hsub with ⟨l₃, l₄, hS, h₃, h₄⟩
    have h₃' : ∀ c ∈ l₃, c ≠ '\n' := fun c hc => h c (h₃.mem hc)
    rcases List.sublist_singleton.mp h₄ with h4nil | h4z
    · subst h4nil
      rw [List.append_nil] at hS
      subst hS
      intro c hc
      exact h₃' c ((List.dropLast_sublist _).mem hc)
    · subst h4z
      subst hS
      intro c hc
      rw [List.dropLast_concat] at hc
      exact h₃' c hc

/-- Python `str.strip()`: remove leading and trailing whitespace. -/
def pyStrip (s : List Char) : List Char :=
  (((s.dropWhile isPyWs).reverse.dropWhile isPyWs)).reverse

/-- Trailing-whitespace-only removal, the transformation as claims C2 and C8
word it (the source's `str.strip()` additionally removes leading whitespace). -/
def pyRstrip (s : List Char) : List Char :=
  (s.reverse.dropWhile isPyWs).reverse

theorem head?_dropWhile_not {p : Char → Bool} :
    ∀ (l : List Char) (c : Char), (l.dropWhile p).head? = some c → p c = false := by
  intro l
  induction l with
  | nil => intro c h; simp at h
  | cons x xs ih =>
    intro c h
    rw [List.dropWhile_cons] at h
    split at h
    · exact ih c h
    · next hx =>
      simp at h
      rw [← h]
      cases hpx : p x
      · rfl
      · exact absurd hpx hx

theorem pyStrip_decomp (s : List Char) :
    ∃ w1 w2, s = w1 ++ pyStrip s ++ w2 ∧
      (∀ c ∈ w1, isPyWs c = true) ∧ (∀ c ∈ w2, isPyWs c = true) := by
  refine ⟨s.takeWhile isPyWs,
    (((s.dropWhile isPyWs).reverse.takeWhile isPyWs)).reverse, ?_, ?_, ?_⟩
  · unfold pyStrip
    conv_lhs => rw [← List.takeWhile_append_dropWhile (p := isPyWs) (l := s)]
    rw [List.append_assoc]
    congr 1
    conv_lhs => rw [← List.reverse_reverse (s.dropWhile isPyWs)]
    conv_lhs =>
      rw [← List.takeWhile_append_dropWhile (p := isPyWs)
        (l := (s.dropWhile isPyWs).reverse)]
    rw [List.reverse_append]
  · intro c hc
    exact List.mem_takeWhile_imp hc
  · intro c hc
    rw [List.mem_reverse] at hc
    exact List.mem_takeWhile_imp hc

theorem pyStrip_head? (s : List Char) :
    ∀ c, (pyStrip s).head? = some c → isPyWs c = false := by
  intro c h
  unfold pyStrip at h
  rw [List.head?_reverse] at h
  have hsuf : List.IsSuffix ((s.dropWhile isPyWs).reverse.dropWhile isPyWs)
      (s.dropWhile isPyWs).reverse := List.dropWhile_suffix _
  rcases hsuf with ⟨u, hu⟩
  have hne : (s.dropWhile isPyWs).reverse.dropWhile isPyWs ≠ [] := by
    intro hnil
    rw [hnil] at h
    simp at h
  have hlast : ((s.dropWhile isPyWs).reverse).getLast? = some c := by
    rw [← hu, List.getLast?_append_of_ne_nil _ hne]
    exact h
  rw [List.getLast?_reverse] at hlast
  exact head?_dropWhile_not s c hlast

theorem pyStrip_getLast? (s : List Char) :
    ∀ c, (pyStrip s).getLast? = some c → isPyWs c = false := by
  intro c h
  unfold pyStrip at h
  rw [List.getLast?_reverse] at h
  exact head?_dropWhile_not _ c h

/-- Applying `pyStrip` to a text whose `'\n'` characters occur only in final position
contains no `'\n'` at all. -/
theorem pyStrip_no_nl {s : List Char} (h : ∀ c ∈ s.dropLast, c ≠ '\n') :
    ∀ c ∈ pyStrip s, c ≠ '\n' := by
  have hsub : List.Sublist (pyStrip s) s := by
    unfold pyStrip
    have h1 : List.Sublist ((s.dropWhile isPyWs).reverse.dropWhile isPyWs)
        (s.dropWhile isPyWs).reverse := List.dropWhile_sublist _
    have h2 := h1.reverse
    rw [List.reverse_reverse] at h2
    exact h2.trans (List.dropWhile_sublist _)
  intro c hc hnl
  subst hnl
  have h' := sublist_dropLast_no_nl hsub h
  -- the last element of `pyStrip s` is not whitespace, so it is not `'\n'`;
  -- every other element is covered by `h'`
  rcases hlast : (pyStrip s).getLast? with _ | z
  · have : pyStrip s = [] := by
      cases hps : pyStrip s with
      | nil => rfl
      | cons x xs => rw [hps] at hlast; simp [List.getLast?_eq_getLast] at hlast
    rw [this] at hc
    simp at hc
  · have hz : isPyWs z = false := pyStrip_getLast? s z hlast
    have hne : pyStrip s ≠ [] := by
      intro hnil
      rw [hnil] at hlast
      simp at hlast
    have hdecomp : pyStrip s = (pyStrip s).dropLast ++ [z] := by
      have := List.dropLast_append_getLast hne
      rw [List.getLast?_eq_getLast _ hne] at hlast
      simp at hlast
      rw [hlast] at this
      exact this.symm
    rw [hdecomp] at hc
    rcases List.mem_append.mp hc with hmem | hmem
    · exact h' '\n' hmem rfl
    · simp at hmem
      rw [← hmem] at hz
      simp [isPyWs] at hz

/-- Python file iteration: split a file's character content into lines, each
keeping its `'\n'` terminator; a final line without terminator is kept as is.
Both `get_task`'s `for line in todo_file` and the `FileInput` loop of
`add_description` iterate exactly these pieces. -/
def pyLines : List Char → List (List Char)
  | [] => []
  | c :: cs =>
    if c = '\n' then [c] :: pyLines cs
    else
      match pyLines cs with
      | [] => [[c]]
      | l :: ls => (c :: l) :: ls

/-- Well-formed line lists: every line is nonempty with `'\n'` at most in
final position, and every line before the last ends with `'\n'`. -/
inductive Chunks : List (List Char) → Prop
  | nil : Chunks []
  | single (c : List Char) : c ≠ [] → (∀ ch ∈ c.dropLast, ch ≠ '\n') → Chunks [c]
  | cons (c c₂ : List Char) (rest : List (List Char)) :
      c ≠ [] → (∀ ch ∈ c.dropLast, ch ≠ '\n') → c.getLast? = some '\n' →
      Chunks (c₂ :: rest) → Chunks (c :: c₂ :: rest)

theorem pyLines_cons (c : Char) (cs : List Char) :
    pyLines (c :: cs) =
      if c = '\n' then [c] :: pyLines cs
      else
        match pyLines cs with
        | [] => [[c]]
        | l :: ls => (c :: l) :: ls := rfl

theorem pyLines_append_nl {A : List Char} (hA : ∀ c ∈ A, c ≠ '\n') (rest : List Char) :
    pyLines (A ++ '\n' :: rest) = (A ++ ['\n']) :: pyLines rest := by
  induction A with
  | nil => simp [pyLines]
  | cons a A' ih =>
    have ha : a ≠ '\n' := hA a (by simp)
    have hA' : ∀ c ∈ A', c ≠ '\n' := fun c hc => hA c (by simp [hc])
    rw [List.cons_append, pyLines_cons, if_neg ha, ih hA']
    rfl

theorem pyLines_no_nl {A : List Char} (hA : ∀ c ∈ A, c ≠ '\n') (hne : A ≠ []) :
    pyLines A = [A] := by
  induction A with
  | nil => exact absurd rfl hne
  | cons a A' ih =>
    have ha : a ≠ '\n' := hA a (by simp)
    have hA' : ∀ c ∈ A', c ≠ '\n' := fun c hc => hA c (by simp [hc])
    rw [pyLines_cons, if_neg ha]
    cases hA'' : A' with
    | nil => simp [hA'', pyLines]
    | cons x xs =>
      rw [← hA'']
      rw [ih hA' (by simp [hA''])]

theorem pyLines_chunks (s : List Char) : Chunks (pyLines s) := by
  induction s with
  | nil => exact Chunks.nil
  | cons c cs ih =>
    rw [pyLines_cons]
    by_cases hc : c = '\n'
    · rw [if_pos hc]
      cases hp : pyLines cs with
      | nil => exact Chunks.single [c] (by simp) (by simp)
      | cons l ls =>
        refine Chunks.cons [c] l ls (by simp) (by simp) (by simp [hc]) ?_
        rw [← hp]
        exact ih
    · rw [if_neg hc]
      cases hp : pyLines cs with
      | nil => exact Chunks.single [c] (by simp) (by simp)
      | cons l ls =>
        rw [hp] at ih
        cases ih with
        | single l hne hbody =>
          refine Chunks.single (c :: l) (by simp) ?_
          intro ch hch
          rw [List.dropLast_cons_of_ne_nil hne] at hch
          rcases List.mem_cons.mp hch with h | h
          · rw [h]; exact hc
          · exact hbody ch h
        | cons l c₂ rest hne hbody hlast htail =>
          refine Chunks.cons (c :: l) c₂ rest (by simp) ?_ ?_ htail
          · intro ch hch
            rw [List.dropLast_cons_of_ne_nil hne] at hch
            rcases List.mem_cons.mp hch with h | h
            · rw [h]; exact hc
            · exact hbody ch h
          · cases l with
            | nil => exact absurd rfl hne
            | cons x xs => exact hlast

theorem pyLines_flatten {cs : List (List Char)} (h : Chunks cs) :
    pyLines cs.flatten = cs := by
  induction h with
  | nil => simp [pyLines]
  | single c hne hbody =>
    rw [List.flatten_cons, List.flatten_nil, List.append_nil]
    rcases hlast : c.getLast? with _ | z
    · exact absurd (List.getLast?_eq_none_iff.mp hlast) hne
    · have hdecomp : c = c.dropLast ++ [z] := by
        have := List.dropLast_append_getLast hne
        rw [List.getLast?_eq_getLast _ hne] at hlast
        simp at hlast
        rw [hlast] at this
        exact this.symm
      by_cases hz : z = '\n'
      · subst hz
        conv_lhs => rw [hdecomp]
        have : c.dropLast ++ ['\n'] = c.dropLast ++ '\n' :: [] := rfl
        rw [this, pyLines_append_nl hbody]
        simp [pyLines]
        exact hdecomp.symm
      · have hcnl : ∀ ch ∈ c, ch ≠ '\n' := by
          intro ch hch
          conv at hch => rw [hdecomp]
          rcases List.mem_append.mp hch with h | h
          · exact hbody ch h
          · simp at h
            rw [h]
            exact hz
        exact pyLines_no_nl hcnl hne
  | cons c c₂ rest hne hbody hlast htail ih =>
    rw [List.flatten_cons]
    have hdecomp : c = c.dropLast ++ ['\n'] := by
      have := List.dropLast_append_getLast hne
      rw [List.getLast?_eq_getLast _ hne] at hlast
      simp at hlast
      rw [hlast] at this
      exact this.symm
    conv_lhs => rw [hdecomp]
    rw [List.append_assoc]
    have : ['\n'] ++ (c₂ :: rest).flatten = '\n' :: (c₂ :: rest).flatten := rfl
    rw [this, pyLines_append_nl hbody, ih, ← hdecomp]

/-- The target-line transformation of `add_description` (`des.py` line 123-124):
`re.sub` away every existing tag, `str.strip()` the result, and append a space
and the new `des:<id>` tag.  The `print(..., end='\n')` terminator is added by
`rewriteChunks`. -/
def rewriteTarget (line : List Char) (desId : List Char) : List Char :=
  pyStrip (stripTags line) ++ (' ' :: 'd' :: 'e' :: 's' :: ':' :: desId)

/-- The `for index, line in enumerate(todo, start=1)` loop of the `FileInput`
rewrite: the line whose 1-based index equals the target id is replaced by the
transformed line plus `'\n'`; every other line is printed back verbatim. -/
def rewriteChunks (task_id : Int) (desId : List Char) :
    List (List Char) → Int → List (List Char)
  | [], _ => []
  | line :: rest, i =>
    (if i = task_id then rewriteTarget line desId ++ ['\n'] else line) ::
      rewriteChunks task_id desId rest (i + 1)

/-- The whole in-place rewrite of the todo file performed by `add_description`:
the new file content is the concatenation of the printed chunks. -/
def rewriteFile (content : List Char) (task_id : Int) (desId : List Char) : List Char :=
  (rewriteChunks task_id desId (pyLines content) 1).flatten

theorem rewriteChunks_length (task_id : Int) (desId : List Char) :
    ∀ (ls : List (List Char)) (i : Int),
      (rewriteChunks task_id desId ls i).length = ls.length := by
  intro ls
  induction ls with
  | nil => intro i; rfl
  | cons l rest ih =>
    intro i
    show (_ :: rewriteChunks task_id desId rest (i + 1)).length = _
    simp [ih (i + 1)]

theorem rewriteChunks_get? (task_id : Int) (desId : List Char) :
    ∀ (ls : List (List Char)) (i : Int) (j : Nat),
      (rewriteChunks task_id desId ls i).get? j =
        (ls.get? j).map
          (fun l => if i + (j : Int) = task_id then rewriteTarget l desId ++ ['\n'] else l) := by
  intro ls
  induction ls with
  | nil => intro i j; simp [rewriteChunks]
  | cons l rest ih =>
    intro i j
    cases j with
    | zero =>
      show ((if i = task_id then _ else _) :: _).get? 0 = _
      simp
    | succ j' =>
      show ((if i = task_id then _ else _) :: rewriteChunks task_id desId rest (i + 1)).get? (j' + 1) = _
      rw [List.get?_cons_succ, List.get?_cons_succ, ih (i + 1) j']
      have : i + 1 + (j' : Int) = i + ((j' : Int) + 1) := by omega
      rw [this]
      simp

theorem rewriteTarget_no_nl {line desId : List Char}
    (hline : ∀ ch ∈ line.dropLast, ch ≠ '\n')
    (hid : ∀ c ∈ desId, isAlnum c = true) :
    ∀ ch ∈ rewriteTarget line desId, ch ≠ '\n' := by
  intro ch hch
  unfold rewriteTarget at hch
  rcases List.mem_append.mp hch with h | h
  · have hstrip : List.Sublist (stripTags line) line := stripTags_sublist line
    have hbody : ∀ c ∈ (stripTags line).dropLast, c ≠ '\n' :=
      sublist_dropLast_no_nl hstrip hline
    exact pyStrip_no_nl hbody ch h
  · rcases List.mem_cons.mp h with h1 | h1
    · rw [h1]; decide
    · rcases List.mem_cons.mp h1 with h2 | h2
      · rw [h2]; decide
      · rcases List.mem_cons.mp h2 with h3 | h3
        · rw [h3]; decide
        · rcases List.mem_cons.mp h3 with h4 | h4
          · rw [h4]; decide
          · rcases List.mem_cons.mp h4 with h5 | h5
            · rw [h5]; decide
            · intro hnl
              rw [hnl] at h5
              have := hid '\n' h5
              simp [isAlnum] at this

theorem chunks_rewrite (task_id : Int) (desId : List Char)
    (hid : ∀ c ∈ desId, isAlnum c = true) :
    ∀ (ls : List (List Char)) (i : Int), Chunks ls →
      Chunks (rewriteChunks task_id desId ls i) := by
  have htc : ∀ (l : List Char), (∀ ch ∈ l.dropLast, ch ≠ '\n') →
      ((rewriteTarget l desId ++ ['\n']) ≠ [] ∧
        (∀ ch ∈ (rewriteTarget l desId ++ ['\n']).dropLast, ch ≠ '\n') ∧
        (rewriteTarget l desId ++ ['\n']).getLast? = some '\n') := by
    intro l hl
    refine ⟨by simp, ?_, by simp⟩
    intro ch hch
    rw [List.dropLast_concat] at hch
    exact rewriteTarget_no_nl hl hid ch hch
  intro ls
  induction ls with
  | nil => intro i _; exact Chunks.nil
  | cons l rest ih =>
    intro i hch
    cases hch with
    | single l hne hbody =>
      show Chunks [if i = task_id then _ else _]
      by_cases hit : i = task_id
      · rw [if_pos hit]
        rcases htc l hbody with ⟨h1, h2, _⟩
        exact Chunks.single _ h1 h2
      · rw [if_neg hit]
        exact Chunks.single _ hne hbody
    | cons l c₂ rest' hne hbody hlast htail =>
      have htail' : Chunks (rewriteChunks task_id desId (c₂ :: rest') (i + 1)) :=
        ih (i + 1) htail
      have htail'' :
          rewriteChunks task_id desId (c₂ :: rest') (i + 1) =
            (if i + 1 = task_id then rewriteTarget c₂ desId ++ ['\n'] else c₂) ::
              rewriteChunks task_id desId rest' (i + 1 + 1) := by
        simp only [rewriteChunks]
      show Chunks ((if i = task_id then _ else _) ::
        rewriteChunks task_id desId (c₂ :: rest') (i + 1))
      rw [htail''] at htail' ⊢
      by_cases hit : i = task_id
      · rw [if_pos hit]
        rcases htc l hbody with ⟨h1, h2, h3⟩
        exact Chunks.cons _ _ _ h1 h2 h3 htail'
      · rw [if_neg hit]
        exact Chunks.cons _ _ _ hne hbody hlast htail'

/-- The rewritten file splits back into exactly the rewritten chunks. -/
theorem pyLines_rewriteFile (content : List Char) (task_id : Int) (desId : List Char)
    (hid : ∀ c ∈ desId, isAlnum c = true) :
    pyLines (rewriteFile content task_id desId) =
      rewriteChunks task_id desId (pyLines content) 1 :=
  pyLines_flatten (chunks_rewrite task_id desId hid (pyLines content) 1 (pyLines_chunks content))

/-- In a well-formed line list, every line before the last ends with `'\n'`. -/
theorem chunks_get?_last {cs : List (List Char)} (h : Chunks cs) :
    ∀ (j : Nat) (l : List Char), cs.get? j = some l → j + 1 < cs.length →
      l.getLast? = some '\n' := by
  induction h with
  | nil => intro j l hl _; simp at hl
  | single c hne hbody =>
    intro j l hl hj
    simp at hj
  | cons c c₂ rest hne hbody hlast htail ih =>
    intro j l hl hj
    cases j with
    | zero =>
      simp at hl
      rw [← hl]
      exact hlast
    | succ j' =>
      rw [List.get?_cons_succ] at hl
      have hj' : j' + 1 < (c₂ :: rest).length := by
        simp [List.length_cons] at hj ⊢
        omega
      exact ih j' l hl hj'

/-! The SHA-256 function, as used by `hashlib.sha256(...).hexdigest()` in `des.py` line 113.
Words are natural numbers reduced modulo `2 ^ 32`. -/

/-- Truncate to a 32-bit word. -/
def w32 (n : Nat) : Nat := n % 4294967296

/-- 32-bit right rotation. -/
def rotr32 (n x : Nat) : Nat := w32 ((x >>> n) ||| (x <<< (32 - n)))

/-- 32-bit complement. -/
def not32 (x : Nat) : Nat := x ^^^ 4294967295

def bigSigma0 (x : Nat) : Nat := rotr32 2 x ^^^ rotr32 13 x ^^^ rotr32 22 x

def bigSigma1 (x : Nat) : Nat := rotr32 6 x ^^^ rotr32 11 x ^^^ rotr32 25 x

def smallSigma0 (x : Nat) : Nat := rotr32 7 x ^^^ rotr32 18 x ^^^ (x >>> 3)

def smallSigma1 (x : Nat) : Nat := rotr32 17 x ^^^ rotr32 19 x ^^^ (x >>> 10)

def chFn (x y z : Nat) : Nat := (x &&& y) ^^^ (not32 x &&& z)

def majFn (x y z : Nat) : Nat := (x &&& y) ^^^ (x &&& z) ^^^ (y &&& z)

/-- The 64 SHA-256 round constants. -/
def K256 : List Nat :=
  [1116352408, 1899447441, 3049323471, 3921009573,
   961987163, 1508970993, 2453635748, 2870763221,
   3624381080, 310598401, 607225278, 1426881987,
   1925078388, 2162078206, 2614888103, 3248222580,
   3835390401, 4022224774, 264347078, 604807628,
   770255983, 1249150122, 1555081692, 1996064986,
   2554220882, 2821834349, 2952996808, 3210313671,
   3336571891, 3584528711, 113926993, 338241895,
   666307205, 773529912, 1294757372, 1396182291,
   1695183700, 1986661051, 2177026350, 2456956037,
   2730485921, 2820302411, 3259730800, 3345764771,
   3516065817, 3600352804, 4094571909, 275423344,
   430227734, 506948616, 659060556, 883997877,
   958139571, 1322822218, 1537002063, 1747873779,
   1955562222, 2024104815, 2227730452, 2361852424,
   2428436474, 2756734187, 3204031479, 3329325298]

/-- SHA-256 working state: eight 32-bit words. -/
structure Hash8 where
  a : Nat
  b : Nat
  c : Nat
  d : Nat
  e : Nat
  f : Nat
  g : Nat
  h : Nat
deriving DecidableEq

/-- SHA-256 initial hash value. -/
def H0 : Hash8 :=
  ⟨1779033703, 3144134277, 1013904242, 2773480762,
   1359893119, 2600822924, 528734635, 1541459225⟩

/-- Extend the 16 message words by `fuel` scheduled words. -/
def msgSchedule : Nat → List Nat → List Nat
  | 0, ws => ws
  | n + 1, ws =>
    msgSchedule n (ws ++ [w32 (smallSigma1 (ws.getD (ws.length - 2) 0) +
      ws.getD (ws.length - 7) 0 + smallSigma0 (ws.getD (ws.length - 15) 0) +
      ws.getD (ws.length - 16) 0)])

/-- One SHA-256 round with key/schedule pair `kw`. -/
def round256 (st : Hash8) (kw : Nat × Nat) : Hash8 :=
  ⟨w32 (w32 (st.h + bigSigma1 st.e + chFn st.e st.f st.g + kw.1 + kw.2) +
      w32 (bigSigma0 st.a + majFn st.a st.b st.c)),
    st.a, st.b, st.c,
    w32 (st.d + w32 (st.h + bigSigma1 st.e + chFn st.e st.f st.g + kw.1 + kw.2)),
    st.e, st.f, st.g⟩

/-- Big-endian 32-bit words from a byte sequence. -/
def toWords : List Nat → List Nat
  | b1 :: b2 :: b3 :: b4 :: rest =>
    (((b1 * 256 + b2) * 256 + b3) * 256 + b4) :: toWords rest
  | _ => []

/-- Compression of one 64-byte block into the running hash. -/
def compress (st : Hash8) (block : List Nat) : Hash8 :=
  let fin := (List.zip K256 (msgSchedule 48 (toWords block))).foldl round256 st
  ⟨w32 (st.a + fin.a), w32 (st.b + fin.b), w32 (st.c + fin.c), w32 (st.d + fin.d),
   w32 (st.e + fin.e), w32 (st.f + fin.f), w32 (st.g + fin.g), w32 (st.h + fin.h)⟩

/-- The 64-bit big-endian message length footer of SHA-256 padding. -/
def lengthBytes (n : Nat) : List Nat :=
  [n / 2 ^ 56 % 256, n / 2 ^ 48 % 256, n / 2 ^ 40 % 256, n / 2 ^ 32 % 256,
   n / 2 ^ 24 % 256, n / 2 ^ 16 % 256, n / 2 ^ 8 % 256, n % 256]

/-- SHA-256 padding: `0x80`, zeros to 56 mod 64, then the bit length. -/
def padMessage (m : List Nat) : List Nat :=
  m ++ 128 :: (List.replicate ((64 - (m.length + 9) % 64) % 64) 0 ++ lengthBytes (8 * m.length))

/-- Process `n` 64-byte blocks. -/
def sha256Blocks : Nat → List Nat → Hash8 → Hash8
  | 0, _, st => st
  | n + 1, bytes, st => sha256Blocks n (bytes.drop 64) (compress st (bytes.take 64))

/-- SHA-256 of a byte sequence. -/
def sha256Digest (m : List Nat) : Hash8 :=
  sha256Blocks ((padMessage m).length / 64) (padMessage m) H0

/-- The lowercase hexadecimal digit of a nibble, as Python's hex formatting
produces it: the digits `0`-`9` then the letters `a`-`f`. -/
def nibbleChar (n : Nat) : Char :=
  if n < 10 then Char.ofNat (48 + n) else Char.ofNat (87 + n)

/-- The sixteen lowercase hexadecimal digit characters. -/
def hexChars : List Char := (List.range 16).map nibbleChar

/-- Eight hex characters of one 32-bit word, most significant nibble first. -/
def wordHex (w : Nat) : List Char :=
  [nibbleChar (w / 16 ^ 7 % 16), nibbleChar (w / 16 ^ 6 % 16),
   nibbleChar (w / 16 ^ 5 % 16), nibbleChar (w / 16 ^ 4 % 16),
   nibbleChar (w / 16 ^ 3 % 16), nibbleChar (w / 16 ^ 2 % 16),
   nibbleChar (w / 16 % 16), nibbleChar (w % 16)]

/-- Embedding of `hashlib`'s `.hexdigest()`: the eight state words in lowercase hex. -/
def hexdigest (st : Hash8) : List Char :=
  wordHex st.a ++ wordHex st.b ++ wordHex st.c ++ wordHex st.d ++
    wordHex st.e ++ wordHex st.f ++ wordHex st.g ++ wordHex st.h

/-- UTF-8 bytes of `str(n)` for a natural number: the ASCII decimal digits. -/
def strBytes (n : Nat) : List Nat := (toString n).toList.map Char.toNat

/-- Embedding of `sha256(str(getrandbits(256)).encode('utf-8')).hexdigest()[:8]`
(`des.py` line 113), with the drawn random value as a parameter. -/
def generate_id (rnd : Nat) : List Char :=
  (hexdigest (sha256Digest (strBytes rnd))).take 8

theorem nibbleChar_mem (n : Nat) (h : n < 16) : nibbleChar n ∈ hexChars :=
  List.mem_map.mpr ⟨n, List.mem_range.mpr h, rfl⟩

theorem wordHex_mem {c : Char} {w : Nat} (h : c ∈ wordHex w) : c ∈ hexChars := by
  unfold wordHex at h
  simp only [List.mem_cons, List.not_mem_nil, or_false] at h
  rcases h with h | h | h | h | h | h | h | h <;>
    (rw [h]; exact nibbleChar_mem _ (Nat.mod_lt _ (by omega)))

theorem hexdigest_length (st : Hash8) : (hexdigest st).length = 64 := by
  unfold hexdigest wordHex
  simp

theorem hexdigest_mem {c : Char} {st : Hash8} (h : c ∈ hexdigest st) : c ∈ hexChars := by
  unfold hexdigest at h
  simp only [List.mem_append] at h
  rcases h with ((((((h | h) | h) | h) | h) | h) | h) | h <;> exact wordHex_mem h

theorem generate_id_length (rnd : Nat) : (generate_id rnd).length = 8 := by
  unfold generate_id
  rw [List.length_take, hexdigest_length]
  decide

theorem generate_id_mem {c : Char} {rnd : Nat} (h : c ∈ generate_id rnd) : c ∈ hexChars := by
  unfold generate_id at h
  exact hexdigest_mem (List.take_subset 8 _ h)

theorem hexChars_alnum : ∀ c ∈ hexChars, isAlnum c = true := by decide

theorem generate_id_alnum (rnd : Nat) : ∀ c ∈ generate_id rnd, isAlnum c = true :=
  fun c hc => hexChars_alnum c (generate_id_mem hc)

theorem generate_id_ne_nil (rnd : Nat) : generate_id rnd ≠ [] := by
  intro h
  have := generate_id_length rnd
  rw [h] at this
  simp at this

/-! The data model and the operations of `des.py`. -/

/-- The `Task` dataclass (`des.py` lines 18-22). -/
structure Task where
  id : Int
  original_content : List Char
  description_id : Option (List Char)
deriving DecidableEq

/-- Embedding of `parse_task` (`des.py` lines 25-39): attach the first `des:<id>` tag found
in the line, if any. -/
def parse_task (task_id : Int) (original_content : List Char) : Task :=
  match findTag original_content with
  | some description_id => ⟨task_id, original_content, some description_id⟩
  | none => ⟨task_id, original_content, none⟩

/-- The `for i, line in enumerate(todo_file)` loop of `get_task`
(`des.py` lines 45-49), carrying the running 0-based index `i`. -/
def getTaskAux (task_id : Int) : List (List Char) → Int → Option Task
  | [], _ => none
  | line :: rest, i =>
    if i = task_id - 1 then some (parse_task task_id line)
    else getTaskAux task_id rest (i + 1)

/-- Embedding of `get_task` (`des.py` lines 41-51) over the todo file's lines. -/
def get_task (lines : List (List Char)) (task_id : Int) : Option Task :=
  getTaskAux task_id lines 0

/-- Status of the `<TODO_DIR>/descriptions` path on disk. -/
inductive FsNode
  | absent
  | file
  | dir
deriving DecidableEq

/-- The distinct `ValueError` raise sites of `des.py`, one constructor per
message.  `main` catches every one of them and exits with code 1. -/
inductive PyErr
  | taskNotFound (task_id : Int)
  | notADirectory
  | notAFile (filename : List Char)
  | noDescriptionFound (task_id : Int)
deriving DecidableEq

/-- State touched by the program: the todo file content, the status of the
descriptions directory path, the description files inside it (newest first),
and the `.bak` backup left by the latest rewrite. -/
structure DesState where
  todoFile : List Char
  descDir : FsNode
  descFiles : List (List Char × List Char)
  backup : Option (List Char)
deriving DecidableEq

/-- Association-list lookup modelling reads of `<id>.txt` in the
descriptions directory; a rewritten file shadows an older one. -/
def lookupStore : List (List Char × List Char) → List Char → Option (List Char)
  | [], _ => none
  | (k, v) :: rest, key => if k = key then some v else lookupStore rest key

/-- Embedding of `get_description_file` (`des.py` lines 62-73): create the descriptions
directory when the path is absent, fail when the path is not a directory,
otherwise return the (possibly new) directory status and the `<id>.txt`
file name. -/
def get_description_file (ds : FsNode) (description_id : List Char) :
    Except PyErr (FsNode × List Char) :=
  if (if ds = FsNode.absent then FsNode.dir else ds) ≠ FsNode.dir then
    Except.error PyErr.notADirectory
  else
    Except.ok (if ds = FsNode.absent then FsNode.dir else ds,
      description_id ++ ('.' :: 't' :: 'x' :: 't' :: []))

/-- Embedding of `get_description_content` (`des.py` lines 75-82): resolve the file, fail
when it does not exist, otherwise return its full content. -/
def get_description_content (st : DesState) (description_id : List Char) :
    Except PyErr (FsNode × List Char) :=
  match get_description_file st.descDir description_id with
  | Except.error e => Except.error e
  | Except.ok (ds', filename) =>
    match lookupStore st.descFiles description_id with
    | none => Except.error (PyErr.notAFile filename)
    | some content => Except.ok (ds', content)

/-- Embedding of `add_description` (`des.py` lines 98-126): locate the task, check the
descriptions directory, generate an identifier from the drawn random value,
write the description file, and rewrite the todo file in place leaving a
`.bak` backup. -/
def add_description (st : DesState) (task_id : Int) (description : List Char)
    (rnd : Nat) : Except PyErr DesState :=
  match get_task (pyLines st.todoFile) task_id with
  | none => Except.error (PyErr.taskNotFound task_id)
  | some _ =>
    if st.descDir ≠ FsNode.dir then Except.error PyErr.notADirectory
    else
      Except.ok
        { todoFile := rewriteFile st.todoFile task_id (generate_id rnd)
          descDir := st.descDir
          descFiles := (generate_id rnd, description) :: st.descFiles
          backup := some st.todoFile }

/-- Embedding of `show_description` (`des.py` lines 128-140): locate the task, fail when it
has no tag, otherwise return the description content handed to `print`. -/
def show_description (st : DesState) (task_id : Int) :
    Except PyErr (FsNode × List Char) :=
  match get_task (pyLines st.todoFile) task_id with
  | none => Except.error (PyErr.taskNotFound task_id)
  | some task =>
    match task.description_id with
    | some description_id => get_description_content st description_id
    | none => Except.error (PyErr.noDescriptionFound task_id)

/-- Embedding of `edit_description` (`des.py` lines 84-95): locate the task, fail when it
has no tag, otherwise resolve the description file whose path is handed to the
external editor (`call([editor, description_file])`, modelled as returning
that path). -/
def edit_description (st : DesState) (task_id : Int) :
    Except PyErr (FsNode × List Char) :=
  match get_task (pyLines st.todoFile) task_id with
  | none => Except.error (PyErr.taskNotFound task_id)
  | some task =>
    match task.description_id with
    | some description_id => get_description_file st.descDir description_id
    | none => Except.error (PyErr.noDescriptionFound task_id)

/-- Embedding of `optionally_from_stdin` (`des.py` lines 142-150) with the standard input
content as an explicit argument: a lone dash means the stripped stdin text. -/
def optionally_from_stdin (input : List Char) (stdin : List Char) : List Char :=
  if input = ['-'] then pyStrip stdin else input

/-- The `except ValueError ... sys.exit(1)` wrapper of `main`
(`des.py` lines 204-209). -/
def exitCode {α : Type} : Except PyErr α → Nat
  | Except.error _ => 1
  | Except.ok _ => 0

theorem getTaskAux_eq (task_id : Int) :
    ∀ (ls : List (List Char)) (i : Int),
      getTaskAux task_id ls i =
        (if i ≤ task_id - 1 then ls.get? (task_id - 1 - i).toNat else none).map
          (parse_task task_id) := by
  intro ls
  induction ls with
  | nil =>
    intro i
    show none = _
    cases hle : decide (i ≤ task_id - 1) <;> simp_all
  | cons l rest ih =>
    intro i
    show (if i = task_id - 1 then _ else getTaskAux task_id rest (i + 1)) = _
    by_cases hit : i = task_id - 1
    · rw [if_pos hit]
      have h0 : (task_id - 1 - i).toNat = 0 := by omega
      rw [if_pos (by omega), h0]
      simp
    · rw [if_neg hit, ih (i + 1)]
      by_cases hlt : i + 1 ≤ task_id - 1
      · rw [if_pos hlt, if_pos (by omega)]
        have hsucc : (task_id - 1 - i).toNat = (task_id - 1 - (i + 1)).toNat + 1 := by
          omega
        rw [hsucc, List.get?_cons_succ]
      · rw [if_neg hlt, if_neg (by omega)]

/-- The locator `get_task` returns the line at 0-based index `task_id - 1`, when the
requested id is at least 1 and in range. -/
theorem get_task_eq (lines : List (List Char)) (task_id : Int) :
    get_task lines task_id =
      (if 1 ≤ task_id then lines.get? (task_id - 1).toNat else none).map
        (parse_task task_id) := by
  unfold get_task
  rw [getTaskAux_eq]
  have h1 : (0 : Int) ≤ task_id - 1 ↔ 1 ≤ task_id := by omega
  by_cases h : 1 ≤ task_id
  · rw [if_pos (by omega), if_pos h]
    have : task_id - 1 - 0 = task_id - 1 := by omega
    rw [this]
  · rw [if_neg (by omega), if_neg h]

/-- Lowercase hexadecimal characters, the alphabet claimed for generated
identifiers. -/
def isLowerHex (c : Char) : Bool :=
  ('0' ≤ c && c ≤ '9') || ('a' ≤ c && c ≤ 'f')

theorem hexChars_lowerHex : ∀ c ∈ hexChars, isLowerHex c = true := by decide

theorem parse_task_original (t : Int) (line : List Char) :
    (parse_task t line).original_content = line ∧ (parse_task t line).id = t := by
  unfold parse_task
  cases findTag line <;> simp

theorem parse_task_description_id (t : Int) (line : List Char) :
    (parse_task t line).description_id = findTag line := by
  unfold parse_task
  cases h : findTag line <;> simp

theorem takeWhile_all_append {p : Char → Bool} {A : List Char}
    (hA : ∀ c ∈ A, p c = true) {b : Char} (hb : p b = false) (r : List Char) :
    (A ++ b :: r).takeWhile p = A := by
  induction A with
  | nil => simp [List.takeWhile_cons, hb]
  | cons a A' ih =>
    have ha : p a = true := hA a (by simp)
    have hA' : ∀ c ∈ A', p c = true := fun c hc => hA c (by simp [hc])
    rw [List.cons_append, List.takeWhile_cons, if_pos ha, ih hA']

/-- The spec-side condition of claim C4: position `k` of the line starts the
literal token `des:` followed immediately by at least one alphanumeric
character. -/
def tagAt (s : List Char) (k : Nat) : Prop :=
  ∃ c v, s.drop k = 'd' :: 'e' :: 's' :: ':' :: c :: v ∧ isAlnum c = true

theorem matchDes_drop_some_iff (s : List Char) (k : Nat) :
    (∃ x, matchDes (s.drop k) = some x) ↔ tagAt s k := by
  constructor
  · rintro ⟨⟨i, r⟩, h⟩
    rcases matchDes_eq_some_iff.mp h with ⟨c, v, heq, hc, -, -⟩
    exact ⟨c, v, heq, hc⟩
  · rintro ⟨c, v, heq, hc⟩
    exact ⟨_, matchDes_eq_some_iff.mpr ⟨c, v, heq, hc, rfl, rfl⟩⟩

/-! Claim theorems. -/

/-- Claim C4 (confirmed): the Tag Parser returns an identifier if and only if the
line contains the literal token `des:` followed immediately by one or more
alphanumeric characters; when it does, the returned identifier is the greedy
alphanumeric run at the first such occurrence, and it is never empty (a `des:`
with zero following alphanumeric characters never matches). -/
theorem tag_parser_first_match (s : List Char) :
    ((findTag s).isSome ↔ ∃ k, tagAt s k) ∧
    (∀ i, findTag s = some i →
      ∃ k, tagAt s k ∧ (∀ j, j < k → ¬ tagAt s j) ∧
        i = (s.drop (k + 4)).takeWhile isAlnum ∧ i ≠ []) := by
  have hmain : ∀ i, findTag s = some i →
      ∃ k, tagAt s k ∧ (∀ j, j < k → ¬ tagAt s j) ∧
        i = (s.drop (k + 4)).takeWhile isAlnum ∧ i ≠ [] := by
    intro i h
    rcases findTag_eq_some_iff.mp h with ⟨k, r, hmin, hk⟩
    refine ⟨k, (matchDes_drop_some_iff s k).mp ⟨(i, r), hk⟩, ?_, ?_, ?_⟩
    · intro j hj htag
      rcases (matchDes_drop_some_iff s j).mpr htag with ⟨x, hx⟩
      rw [hmin j hj] at hx
      exact absurd hx (by simp)
    · rcases matchDes_eq_some_iff.mp hk with ⟨c, v, heq, -, hi, -⟩
      have h45 : (s.drop k).drop 4 = s.drop (k + 4) := List.drop_drop 4 k s
      have : s.drop (k + 4) = c :: v := by
        rw [← h45, heq]
        rfl
      rw [this, hi]
    · rcases matchDes_eq_some_iff.mp hk with ⟨c, v, -, hc, hi, -⟩
      rw [hi, List.takeWhile_cons, if_pos hc]
      simp
  refine ⟨⟨?_, ?_⟩, hmain⟩
  · intro hsome
    rcases Option.isSome_iff_exists.mp hsome with ⟨i, hi⟩
    rcases hmain i hi with ⟨k, htag, -, -, -⟩
    exact ⟨k, htag⟩
  · rintro ⟨k, htag⟩
    rcases (matchDes_drop_some_iff s k).mpr htag with ⟨x, hx⟩
    have := findTag_suffix_some ⟨x, hx⟩ (s.take k)
    rw [List.take_append_drop] at this
    rcases this with ⟨y, hy⟩
    rw [hy]
    rfl

/-- Claim C4 witness: the first match on a concrete line with two tags. -/
theorem tag_parser_first_match_witness :
    ((findTag ("x des:ab12 des:zz".toList)).isSome ↔
      ∃ k, tagAt ("x des:ab12 des:zz".toList) k) ∧
    (∀ i, findTag ("x des:ab12 des:zz".toList) = some i →
      ∃ k, tagAt ("x des:ab12 des:zz".toList) k ∧
        (∀ j, j < k → ¬ tagAt ("x des:ab12 des:zz".toList) j) ∧
        i = (("x des:ab12 des:zz".toList).drop (k + 4)).takeWhile isAlnum ∧ i ≠ []) :=
  tag_parser_first_match _

/-- Claim C6 (confirmed, reading "1-based index" as an index that is at least 1;
non-positive indices are claim C10): the Task Locator returns a record exactly
when the index is within the line count, and `show` surfaces the task-not-found
error with exit code 1 when the index exceeds it. -/
theorem task_locator_bounds (st : DesState) (t : Int) (h1 : 1 ≤ t) :
    ((get_task (pyLines st.todoFile) t).isSome ↔
      t ≤ ((pyLines st.todoFile).length : Int)) ∧
    (((pyLines st.todoFile).length : Int) < t →
      show_description st t = Except.error (PyErr.taskNotFound t) ∧
      exitCode (show_description st t) = 1) := by
  have hget : get_task (pyLines st.todoFile) t =
      ((pyLines st.todoFile).get? (t - 1).toNat).map (parse_task t) := by
    rw [get_task_eq, if_pos h1]
  constructor
  · rw [hget, Option.isSome_map']
    constructor
    · intro h
      by_contra hgt
      push_neg at hgt
      have hnone : (pyLines st.todoFile).get? (t - 1).toNat = none :=
        List.get?_eq_none.mpr (by omega)
      rw [hnone] at h
      simp at h
    · intro h
      have hlt : (t - 1).toNat < (pyLines st.todoFile).length := by omega
      rw [List.get?_eq_get hlt]
      rfl
  · intro hgt
    have hnone : get_task (pyLines st.todoFile) t = none := by
      rw [hget]
      have : (pyLines st.todoFile).get? (t - 1).toNat = none := by
        rw [List.get?_eq_none]
        omega
      rw [this]
      rfl
    have hshow : show_description st t = Except.error (PyErr.taskNotFound t) := by
      unfold show_description
      rw [hnone]
    exact ⟨hshow, by rw [hshow]; rfl⟩

/-- Claim C6 witness: `show 5` on a three-line file fails as not found with exit
code 1. -/
theorem task_locator_bounds_witness :
    ((get_task (pyLines (DesState.mk ("a\nb\nc\n".toList) FsNode.dir [] none).todoFile) 5).isSome ↔
      (5 : Int) ≤ ((pyLines (DesState.mk ("a\nb\nc\n".toList) FsNode.dir [] none).todoFile).length : Int)) ∧
    (((pyLines (DesState.mk ("a\nb\nc\n".toList) FsNode.dir [] none).todoFile).length : Int) < 5 →
      show_description (DesState.mk ("a\nb\nc\n".toList) FsNode.dir [] none) 5 =
        Except.error (PyErr.taskNotFound 5) ∧
      exitCode (show_description (DesState.mk ("a\nb\nc\n".toList) FsNode.dir [] none) 5) = 1) :=
  task_locator_bounds _ 5 (by omega)

/-- Claim C9 (confirmed): every generated description identifier is exactly 8
characters long and consists only of lowercase hexadecimal characters, being
the first 8 hex characters of the SHA-256 digest of the drawn random value. -/
theorem generated_id_format (rnd : Nat) :
    (generate_id rnd).length = 8 ∧ ∀ c ∈ generate_id rnd, isLowerHex c = true :=
  ⟨generate_id_length rnd, fun c hc => hexChars_lowerHex c (generate_id_mem hc)⟩

/-- Claim C9 witness at a concrete random value. -/
theorem generated_id_format_witness :
    (generate_id 0).length = 8 ∧ ∀ c ∈ generate_id 0, isLowerHex c = true :=
  generated_id_format 0

/-- Claim C10 (confirmed): a non-positive task id is treated exactly like an index
past the end of the file — the locator yields nothing, and add, show and edit
all fail with the task-not-found error. -/
theorem nonpositive_task_id (st : DesState) (t : Int) (d : List Char) (rnd : Nat)
    (h : t ≤ 0) :
    get_task (pyLines st.todoFile) t = none ∧
    add_description st t d rnd = Except.error (PyErr.taskNotFound t) ∧
    show_description st t = Except.error (PyErr.taskNotFound t) ∧
    edit_description st t = Except.error (PyErr.taskNotFound t) := by
  have hnone : get_task (pyLines st.todoFile) t = none := by
    rw [get_task_eq, if_neg (by omega)]
    rfl
  refine ⟨hnone, ?_, ?_, ?_⟩
  · unfold add_description
    rw [hnone]
  · unfold show_description
    rw [hnone]
  · unfold edit_description
    rw [hnone]

/-- Claim C10 witness: task id 0 on a non-empty file. -/
theorem nonpositive_task_id_witness :
    get_task (pyLines (DesState.mk ("a\nb\n".toList) FsNode.dir [] none).todoFile) 0 = none ∧
    add_description (DesState.mk ("a\nb\n".toList) FsNode.dir [] none) 0 ("x".toList) 0 =
      Except.error (PyErr.taskNotFound 0) ∧
    show_description (DesState.mk ("a\nb\n".toList) FsNode.dir [] none) 0 =
      Except.error (PyErr.taskNotFound 0) ∧
    edit_description (DesState.mk ("a\nb\n".toList) FsNode.dir [] none) 0 =
      Except.error (PyErr.taskNotFound 0) :=
  nonpositive_task_id _ 0 _ 0 (by omega)

/-- Claim C5 counterexample: the Task record's raw text keeps the line terminator.
The claim predicts `original_content = "a des:xy12"` for the first line of the
file `"a des:xy12\nb\n"`, but `get_task` stores `"a des:xy12\n"`. -/
theorem task_locator_raw_text_cex :
    get_task (pyLines ("a des:xy12\nb\n".toList)) 1 =
      some (Task.mk 1 ("a des:xy12\n".toList) (some ("xy12".toList))) ∧
    "a des:xy12\n".toList ≠ "a des:xy12".toList := by
  decide

/-- Claim C5 as amended: the Task record carries the addressed line's full text
including any trailing tag and including its line terminator as stored in the
file (every line before the last ends with `'\n'`; only the file's final line
may lack one). -/
theorem task_locator_raw_text (content : List Char) (t : Int) (task : Task)
    (h : get_task (pyLines content) t = some task) :
    (pyLines content).get? (t - 1).toNat = some task.original_content ∧
    task.id = t ∧
    ((t - 1).toNat + 1 < (pyLines content).length →
      task.original_content.getLast? = some '\n') := by
  rw [get_task_eq] at h
  by_cases h1 : 1 ≤ t
  · rw [if_pos h1] at h
    cases hline : (pyLines content).get? (t - 1).toNat with
    | none =>
      rw [hline] at h
      exact absurd h (by simp)
    | some line =>
      rw [hline] at h
      simp at h
      rcases parse_task_original t line with ⟨horig, hid⟩
      rw [← h]
      refine ⟨by rw [horig], hid, ?_⟩
      intro hlt
      rw [horig]
      exact chunks_get?_last (pyLines_chunks content) _ line hline hlt
  · rw [if_neg h1] at h
    exact absurd h (by simp)

/-- Claim C5 witness: a two-line file, first line requested. -/
theorem task_locator_raw_text_witness :
    (pyLines ("a\nb\n".toList)).get? ((1 : Int) - 1).toNat =
      some (Task.mk 1 ("a\n".toList) none).original_content ∧
    (Task.mk 1 ("a\n".toList) none).id = 1 ∧
    (((1 : Int) - 1).toNat + 1 < (pyLines ("a\nb\n".toList)).length →
      (Task.mk 1 ("a\n".toList) none).original_content.getLast? = some '\n') :=
  task_locator_raw_text ("a\nb\n".toList) 1 (Task.mk 1 ("a\n".toList) none) (by decide)

/-- Claim C7 counterexample: when the descriptions directory path is absent, `add`
raises the not-a-directory error instead of creating the directory and
proceeding, contradicting the claim that the error occurs only when the path
exists as a non-directory. -/
theorem descriptions_dir_check_cex :
    add_description (DesState.mk ("a\n".toList) FsNode.absent [] none) 1 ("x".toList) 0 =
      Except.error PyErr.notADirectory := by
  rfl

/-- Claim C7 as amended: `get_description_file` — used by show and edit — creates
the directory when the path is absent and fails exactly when the path exists
but is not a directory, while `add_description`'s own check fails whenever the
path is not currently a directory, including when it is absent. -/
theorem descriptions_dir_check (ds : FsNode) (description_id : List Char) :
    ((get_description_file ds description_id = Except.error PyErr.notADirectory) ↔
      ds = FsNode.file) ∧
    (ds ≠ FsNode.file →
      get_description_file ds description_id =
        Except.ok (FsNode.dir, description_id ++ ('.' :: 't' :: 'x' :: 't' :: []))) ∧
    (∀ (st : DesState) (t : Int) (d : List Char) (rnd : Nat),
      st.descDir = ds → (get_task (pyLines st.todoFile) t).isSome →
      (add_description st t d rnd = Except.error PyErr.notADirectory ↔
        ds ≠ FsNode.dir)) := by
  refine ⟨?_, ?_, ?_⟩
  · cases ds <;> simp [get_description_file]
  · intro hne
    cases ds with
    | absent => rfl
    | file => exact absurd rfl hne
    | dir => rfl
  · intro st t d rnd hds hsome
    rcases Option.isSome_iff_exists.mp hsome with ⟨task, htask⟩
    unfold add_description
    rw [htask]
    by_cases hdir : st.descDir = FsNode.dir
    · rw [if_neg (by simp [hdir])]
      constructor
      · intro h
        exact absurd h (by simp)
      · intro h
        rw [← hds] at h
        exact absurd hdir h
    · rw [if_pos (by simp [hdir])]
      constructor
      · intro _
        rw [← hds]
        exact hdir
      · intro _
        rfl

/-- Claim C7 witness: the path exists as a stray file. -/
theorem descriptions_dir_check_witness :
    ((get_description_file FsNode.file ("ab12cd34".toList) =
        Except.error PyErr.notADirectory) ↔ FsNode.file = FsNode.file) ∧
    (FsNode.file ≠ FsNode.file →
      get_description_file FsNode.file ("ab12cd34".toList) =
        Except.ok (FsNode.dir, ("ab12cd34".toList) ++ ('.' :: 't' :: 'x' :: 't' :: []))) ∧
    (∀ (st : DesState) (t : Int) (d : List Char) (rnd : Nat),
      st.descDir = FsNode.file → (get_task (pyLines st.todoFile) t).isSome →
      (add_description st t d rnd = Except.error PyErr.notADirectory ↔
        FsNode.file ≠ FsNode.dir)) :=
  descriptions_dir_check FsNode.file ("ab12cd34".toList)

/-- Claim C8 counterexample: the dash argument strips leading whitespace too.  With
standard input `" x\n"` the claim (trailing whitespace stripped) predicts
`" x"`, but the code stores `"x"`. -/
theorem stdin_argument_cex :
    optionally_from_stdin ("-".toList) (" x\n".toList) = "x".toList ∧
    pyRstrip (" x\n".toList) = " x".toList ∧
    optionally_from_stdin ("-".toList) (" x\n".toList) ≠ pyRstrip (" x\n".toList) := by
  decide

/-- Claim C8 as amended: a lone dash makes `add` read the description from standard
input with leading and trailing whitespace stripped (`str.strip()`): the
stored text is the maximal whitespace-trimmed middle of the stdin text.  Any
other argument is used unchanged. -/
theorem stdin_argument (input stdin : List Char) :
    (input = ['-'] →
      optionally_from_stdin input stdin = pyStrip stdin ∧
      (∃ w1 w2, stdin = w1 ++ optionally_from_stdin input stdin ++ w2 ∧
        (∀ c ∈ w1, isPyWs c = true) ∧ (∀ c ∈ w2, isPyWs c = true)) ∧
      (∀ c, (optionally_from_stdin input stdin).head? = some c → isPyWs c = false) ∧
      (∀ c, (optionally_from_stdin input stdin).getLast? = some c → isPyWs c = false)) ∧
    (input ≠ ['-'] → optionally_from_stdin input stdin = input) := by
  constructor
  · intro hdash
    have heq : optionally_from_stdin input stdin = pyStrip stdin := by
      unfold optionally_from_stdin
      rw [if_pos hdash]
    refine ⟨heq, ?_, ?_, ?_⟩
    · rw [heq]
      rcases pyStrip_decomp stdin with ⟨w1, w2, hs, h1, h2⟩
      exact ⟨w1, w2, hs, h1, h2⟩
    · rw [heq]
      exact pyStrip_head? stdin
    · rw [heq]
      exact pyStrip_getLast? stdin
  · intro hne
    unfold optionally_from_stdin
    rw [if_neg hne]

/-- Claim C8 witness: the spec's own scenario, piped multi-line text. -/
theorem stdin_argument_witness :
    (("-".toList : List Char) = ['-'] →
      optionally_from_stdin ("-".toList) ("multi\nline\ntext\n".toList) =
        pyStrip ("multi\nline\ntext\n".toList) ∧
      (∃ w1 w2, "multi\nline\ntext\n".toList =
          w1 ++ optionally_from_stdin ("-".toList) ("multi\nline\ntext\n".toList) ++ w2 ∧
        (∀ c ∈ w1, isPyWs c = true) ∧ (∀ c ∈ w2, isPyWs c = true)) ∧
      (∀ c, (optionally_from_stdin ("-".toList) ("multi\nline\ntext\n".toList)).head? = some c →
        isPyWs c = false) ∧
      (∀ c, (optionally_from_stdin ("-".toList) ("multi\nline\ntext\n".toList)).getLast? = some c →
        isPyWs c = false)) ∧
    (("-".toList : List Char) ≠ ['-'] →
      optionally_from_stdin ("-".toList) ("multi\nline\ntext\n".toList) = "-".toList) :=
  stdin_argument ("-".toList) ("multi\nline\ntext\n".toList)

/-- Claim C3 (confirmed): the rewrite preserves the number of lines of the task
file, and every line whose 1-based number differs from the target index is
copied through unchanged, including its original line terminator. -/
theorem rewrite_frame (content : List Char) (t : Int) (desId : List Char)
    (hid : ∀ c ∈ desId, isAlnum c = true) :
    (pyLines (rewriteFile content t desId)).length = (pyLines content).length ∧
    ∀ j : Nat, ((j : Int) + 1 ≠ t) →
      (pyLines (rewriteFile content t desId)).get? j = (pyLines content).get? j := by
  rw [pyLines_rewriteFile content t desId hid]
  constructor
  · exact rewriteChunks_length t desId (pyLines content) 1
  · intro j hj
    rw [rewriteChunks_get?]
    have hcond : ¬ ((1 : Int) + (j : Int) = t) := by omega
    cases (pyLines content).get? j <;> simp [hcond]

/-- Claim C3 witness: rewriting line 2 of a three-line file leaves lines 1 and 3
untouched. -/
theorem rewrite_frame_witness :
    (pyLines (rewriteFile ("a\nb\nc\n".toList) 2 ("ab12cd34".toList))).length =
      (pyLines ("a\nb\nc\n".toList)).length ∧
    ∀ j : Nat, ((j : Int) + 1 ≠ 2) →
      (pyLines (rewriteFile ("a\nb\nc\n".toList) 2 ("ab12cd34".toList))).get? j =
        (pyLines ("a\nb\nc\n".toList)).get? j :=
  rewrite_frame ("a\nb\nc\n".toList) 2 ("ab12cd34".toList) (by decide)

theorem show_description_eq_of_task (st : DesState) (t : Int) (tk : Task)
    (h : get_task (pyLines st.todoFile) t = some tk) (did : List Char)
    (hd : tk.description_id = some did) :
    show_description st t = get_description_content st did := by
  unfold show_description
  rw [h]
  show (match tk.description_id with
    | some description_id => get_description_content st description_id
    | none => Except.error (PyErr.noDescriptionFound t)) = _
  rw [hd]

theorem get_description_content_eq (st : DesState) (did : List Char) (ds' : FsNode)
    (fn : List Char) (hf : get_description_file st.descDir did = Except.ok (ds', fn)) :
    get_description_content st did =
      match lookupStore st.descFiles did with
      | none => Except.error (PyErr.notAFile fn)
      | some content => Except.ok (ds', content) := by
  unfold get_description_content
  rw [hf]

/-- The target-line transformation exactly as claim C2 words it: remove the
tag substrings, trim trailing whitespace only, then append a space and the new
tag. -/
def claimTargetLine (line desId : List Char) : List Char :=
  pyRstrip (stripTags line) ++ (' ' :: 'd' :: 'e' :: 's' :: ':' :: desId)

/-- Claim C2 counterexample: the code runs `str.strip()`, which also removes
leading whitespace.  On the one-line file `"  a\n"` the claim predicts the
rewritten line `"  a des:ab12cd34"`, but the code produces
`"a des:ab12cd34\n"`. -/
theorem rewrite_target_line_cex :
    (pyLines (rewriteFile ("  a\n".toList) 1 ("ab12cd34".toList))).get? 0 =
      some ("a des:ab12cd34\n".toList) ∧
    claimTargetLine ("  a\n".toList) ("ab12cd34".toList) = "  a des:ab12cd34".toList ∧
    "a des:ab12cd34\n".toList ≠ claimTargetLine ("  a\n".toList) ("ab12cd34".toList) ++ ['\n'] := by
  decide

/-- Claim C2 as amended: the rewritten target line equals the original line with
every `des:<id>` tag substring removed entirely, leading AND trailing
whitespace trimmed (`str.strip()`), then a single space and the new
`des:<new-id>` tag appended, terminated by a newline. -/
theorem rewrite_target_line (content : List Char) (t : Int) (desId : List Char)
    (hid : ∀ c ∈ desId, isAlnum c = true)
    (h1 : 1 ≤ t) (h2 : (t - 1).toNat < (pyLines content).length) :
    ∃ line, (pyLines content).get? (t - 1).toNat = some line ∧
      (pyLines (rewriteFile content t desId)).get? (t - 1).toNat =
        some (pyStrip (stripTags line) ++
          (' ' :: 'd' :: 'e' :: 's' :: ':' :: desId) ++ ['\n']) := by
  refine ⟨(pyLines content).get ⟨(t - 1).toNat, h2⟩, List.get?_eq_get h2, ?_⟩
  rw [pyLines_rewriteFile content t desId hid, rewriteChunks_get?, List.get?_eq_get h2]
  have hcond : (1 : Int) + ((t - 1).toNat : Int) = t := by omega
  simp only [Option.map_some', if_pos hcond]
  rfl

/-- Claim C2 witness: rewriting line 2 of a three-line file. -/
theorem rewrite_target_line_witness :
    ∃ line, (pyLines ("a\nb des:old1 x\nc\n".toList)).get? ((2 : Int) - 1).toNat = some line ∧
      (pyLines (rewriteFile ("a\nb des:old1 x\nc\n".toList) 2 ("ab12cd34".toList))).get?
          ((2 : Int) - 1).toNat =
        some (pyStrip (stripTags line) ++
          (' ' :: 'd' :: 'e' :: 's' :: ':' :: ("ab12cd34".toList)) ++ ['\n']) :=
  rewrite_target_line ("a\nb des:old1 x\nc\n".toList) 2 ("ab12cd34".toList)
    (by decide) (by omega) (by decide)

set_option maxRecDepth 100000 in
/-- Claim C1 counterexample: tag removal by `re.sub` can splice a fresh tag
together.  On the file `"desdes:A:B\n"`, `add 1 "x"` rewrites the line to
`"des:B des:<newid>"`; the parser then returns `B` — the first match — so
`show 1` looks up `B.txt` and fails instead of printing `"x"`. -/
theorem add_show_round_trip_cex :
    add_description (DesState.mk ("desdes:A:B\n".toList) FsNode.dir [] none) 1 ("x".toList) 0 =
      Except.ok (DesState.mk ("des:B des:5feceb66\n".toList) FsNode.dir
        [("5feceb66".toList, "x".toList)] (some ("desdes:A:B\n".toList))) ∧
    show_description (DesState.mk ("des:B des:5feceb66\n".toList) FsNode.dir
        [("5feceb66".toList, "x".toList)] (some ("desdes:A:B\n".toList))) 1 =
      Except.error (PyErr.notAFile ("B.txt".toList)) := by
  exact ⟨rfl, rfl⟩

/-- Claim C1 as amended: provided removing the existing tags from the target
line leaves a text with no remaining `des:<alnum>` occurrence (tag removal can
splice such an occurrence together out of the surrounding characters, as the
counterexample shows), `add` followed by `show` on the same task returns
exactly the description text passed to `add` (the text handed to `print`;
stdin stripping is applied before `add` receives it). -/
theorem add_show_round_trip (st : DesState) (t : Int) (d : List Char) (rnd : Nat)
    (task : Task)
    (hdir : st.descDir = FsNode.dir)
    (htask : get_task (pyLines st.todoFile) t = some task)
    (hclean : findTag (stripTags task.original_content) = none) :
    ∃ st', add_description st t d rnd = Except.ok st' ∧
      show_description st' t = Except.ok (FsNode.dir, d) := by
  have htask0 := htask
  rw [get_task_eq] at htask
  by_cases h1 : 1 ≤ t
  case neg =>
    rw [if_neg h1] at htask
    exact absurd htask (by simp)
  rw [if_pos h1] at htask
  cases hline : (pyLines st.todoFile).get? (t - 1).toNat with
  | none =>
    rw [hline] at htask
    exact absurd htask (by simp)
  | some line =>
  rw [hline] at htask
  simp only [Option.map_some', Option.some.injEq] at htask
  have horig : task.original_content = line := by
    rw [← htask]
    exact (parse_task_original t line).1
  have hidal : ∀ c ∈ generate_id rnd, isAlnum c = true := generate_id_alnum rnd
  have hgne : generate_id rnd ≠ [] := generate_id_ne_nil rnd
  refine ⟨⟨rewriteFile st.todoFile t (generate_id rnd), st.descDir,
    (generate_id rnd, d) :: st.descFiles, some st.todoFile⟩, ?_, ?_⟩
  · unfold add_description
    rw [htask0, if_neg (by simp [hdir])]
  · -- the rewritten target line
    have htrg : (pyLines (rewriteFile st.todoFile t (generate_id rnd))).get? (t - 1).toNat =
        some (rewriteTarget line (generate_id rnd) ++ ['\n']) := by
      rw [pyLines_rewriteFile _ _ _ hidal, rewriteChunks_get?, hline]
      have hcond : (1 : Int) + ((t - 1).toNat : Int) = t := by omega
      simp only [Option.map_some', if_pos hcond]
    -- its parse finds exactly the new identifier
    have hAnone : findTag (pyStrip (stripTags line)) = none := by
      rcases pyStrip_decomp (stripTags line) with ⟨w1, w2, hdec, -, -⟩
      apply findTag_infix_none (l := w1) (r := w2)
      rw [← List.append_assoc, ← hdec, ← horig]
      exact hclean
    have hfind : findTag (rewriteTarget line (generate_id rnd) ++ ['\n']) =
        some (generate_id rnd) := by
      have hshape : rewriteTarget line (generate_id rnd) ++ ['\n'] =
          pyStrip (stripTags line) ++
            ' ' :: ('d' :: 'e' :: 's' :: ':' :: (generate_id rnd ++ ['\n'])) := by
        unfold rewriteTarget
        simp
      rw [hshape, findTag_append_space hAnone]
      rcases List.exists_cons_of_ne_nil hgne with ⟨g0, grest, hg⟩
      have hg0 : isAlnum g0 = true := hidal g0 (by rw [hg]; simp)
      have hgrest : ∀ c ∈ grest, isAlnum c = true := by
        intro c hc
        exact hidal c (by rw [hg]; simp [hc])
      rw [hg]
      have hj : (g0 :: grest) ++ ['\n'] = g0 :: (grest ++ ['\n']) := by simp
      rw [hj, findTag_cons]
      have hm : matchDes ('d' :: 'e' :: 's' :: ':' :: (g0 :: (grest ++ ['\n']))) =
          some ((g0 :: (grest ++ ['\n'])).takeWhile isAlnum,
            (g0 :: (grest ++ ['\n'])).dropWhile isAlnum) :=
        matchDes_eq_some_iff.mpr ⟨g0, grest ++ ['\n'], rfl, hg0, rfl, rfl⟩
      rw [hm]
      have htw : (g0 :: (grest ++ ['\n'])).takeWhile isAlnum = g0 :: grest := by
        have : g0 :: (grest ++ ['\n']) = (g0 :: grest) ++ '\n' :: [] := by simp
        rw [this]
        exact takeWhile_all_append
          (by intro c hc; rcases List.mem_cons.mp hc with h | h
              · rw [h]; exact hg0
              · exact hgrest c h)
          (by decide) []
      rw [htw]
    -- the locator on the rewritten file
    have htask' : get_task
        (pyLines (rewriteFile st.todoFile t (generate_id rnd))) t =
        some (parse_task t (rewriteTarget line (generate_id rnd) ++ ['\n'])) := by
      rw [get_task_eq, if_pos h1, htrg]
      rfl
    have hdesc : (parse_task t (rewriteTarget line (generate_id rnd) ++ ['\n'])).description_id =
        some (generate_id rnd) := by
      rw [parse_task_description_id, hfind]
    have hfile : get_description_file
        (DesState.mk (rewriteFile st.todoFile t (generate_id rnd)) st.descDir
          ((generate_id rnd, d) :: st.descFiles) (some st.todoFile)).descDir
        (generate_id rnd) =
        Except.ok (FsNode.dir, generate_id rnd ++ ('.' :: 't' :: 'x' :: 't' :: [])) := by
      show get_description_file st.descDir (generate_id rnd) = _
      rw [hdir]
      rfl
    rw [show_description_eq_of_task _ t _ htask' _ hdesc,
      get_description_content_eq _ _ _ _ hfile]
    have hlook : lookupStore ((generate_id rnd, d) :: st.descFiles) (generate_id rnd) =
        some d := by
      show (if generate_id rnd = generate_id rnd then some d
        else lookupStore st.descFiles (generate_id rnd)) = some d
      rw [if_pos rfl]
    rw [hlook]

/-- Claim C1 witness: the round trip on a clean one-line file. -/
theorem add_show_round_trip_witness :
    ∃ st', add_description (DesState.mk ("task one\n".toList) FsNode.dir [] none) 1
        ("hello".toList) 0 = Except.ok st' ∧
      show_description st' 1 = Except.ok (FsNode.dir, "hello".toList) :=
  add_show_round_trip (DesState.mk ("task one\n".toList) FsNode.dir [] none) 1
    ("hello".toList) 0 (Task.mk 1 ("task one\n".toList) none) rfl (by decide) (by decide)

end Des
